import Mathlib

/-!
Verification of the demand-paged virtual-memory model in `vm.py`.

The Python source is embedded shallowly: the mutable `VM` object becomes an
immutable record, each method becomes a state-passing function, and a raised
`ValueError` (or an uncaught internal exception) becomes an `Except` error
value.  Python integers are `Int` (virtual addresses and page numbers may be
negative), frame numbers and byte values inside frames are `Nat`, and the
byte buffers (`bytearray`) are `List Nat`.  Python floor division `//` and
modulus `%` by the positive constant `PAGE_SIZE` agree with `Int.ediv` and
`Int.emod`.
-/

/-- `PAGE_SIZE = 256` from vm.py. -/
def PAGE_SIZE : Nat := 256

/-- `VIRTUAL_PAGES = 16` from vm.py. -/
def VIRTUAL_PAGES : Nat := 16

/-- `PHYSICAL_FRAMES = 8` from vm.py. -/
def PHYSICAL_FRAMES : Nat := 8

/-- Page table entry (`PTEntry` in vm.py): optional physical frame,
present bit, dirty bit. -/
structure PTEntry where
  frame : Option Nat
  present : Bool
  dirty : Bool
deriving DecidableEq, Repr

/-- The whole state of the `VM` object from vm.py.

`page_table` models `PageTable.get_entry`: the Python dict creates a default
entry (`frame=None, present=False, dirty=False`) on first access, so a total
function defaulting to that entry is observationally identical.
`frames` models `PhysicalMemory.frames` (a dict keyed by frame number whose
initial values are zero-filled bytearrays of length `PAGE_SIZE`).
`backing_store` maps an (integer) page number to the bytes written back at
its last dirty eviction, `none` when never written back. -/
structure VM where
  page_table : Int → PTEntry
  frames : Nat → List Nat
  free_list : List Nat
  fifo_queue : List Int
  frame_to_page : Nat → Option Int
  backing_store : Int → Option (List Nat)
  page_faults : Nat
  page_evictions : Nat

/-- `VM.__init__` together with `PhysicalMemory.__post_init__`:
all `PHYSICAL_FRAMES` frames zero-filled and on the free list, every other
structure empty, counters zero. -/
def VM.init : VM where
  page_table := fun _ => { frame := none, present := false, dirty := false }
  frames := fun f => if f < PHYSICAL_FRAMES then List.replicate PAGE_SIZE 0 else []
  free_list := List.range PHYSICAL_FRAMES
  fifo_queue := []
  frame_to_page := fun _ => none
  backing_store := fun _ => none
  page_faults := 0
  page_evictions := 0

/-- `PhysicalMemory.free_frame` from vm.py: append a frame to the free list.
The method is never invoked by the VM's operations — eviction reuses the
freed frame directly — but is part of the physical-memory manager's API. -/
def free_frame (s : VM) (f : Nat) : VM :=
  { s with free_list := s.free_list ++ [f] }

/-- The eviction block of `VM._ensure_in_ram` (vm.py lines 93-115), after the
victim has been popped from the FIFO queue: increment the eviction counter,
write the victim frame back to the backing store when the victim entry is
dirty, clear the victim entry, and delete the reverse-map entry of the freed
frame.  `v` is the victim page, `f` its frame. -/
def evictVictim (s : VM) (v : Int) (f : Nat) : VM :=
  { s with
    page_evictions := s.page_evictions + 1
    backing_store :=
      if (s.page_table v).dirty then
        fun q => if q = v then some (s.frames f) else s.backing_store q
      else s.backing_store
    page_table := fun q =>
      if q = v then { frame := none, present := false, dirty := false }
      else s.page_table q
    frame_to_page := fun g => if g = f then none else s.frame_to_page g }

/-- The tail of `VM._ensure_in_ram` (vm.py lines 117-132) once a frame `f`
is available for the faulting page `p`: load the frame from the backing
store (or zero-fill it), set the faulting page's entry to a clean resident
entry, append the page to the FIFO queue and record the reverse mapping. -/
def loadInto (s : VM) (p : Int) (f : Nat) : VM :=
  { s with
    frames := fun g =>
      if g = f then
        match s.backing_store p with
        | some b => b
        | none => List.replicate PAGE_SIZE 0
      else s.frames g
    page_table := fun q =>
      if q = p then { frame := some f, present := true, dirty := false }
      else s.page_table q
    fifo_queue := s.fifo_queue ++ [p]
    frame_to_page := fun g => if g = f then some p else s.frame_to_page g }

/-- `VM._ensure_in_ram(page_no)` from vm.py.  `none` is an uncaught internal
exception (popping an empty deque, or a resident victim without a frame);
neither is reachable from `VM.init`.  The fast path returns the state
unchanged; the fault path increments the fault counter, takes the head of
the free list (`PhysicalMemory.allocate_frame` pops index 0) or, when the
free list is empty, evicts the page at the front of the FIFO queue and
reuses its frame. -/
def ensureInRam (s : VM) (p : Int) : Option VM :=
  if (s.page_table p).present then some s
  else
    match s.free_list with
    | f :: rest =>
        some (loadInto { s with page_faults := s.page_faults + 1, free_list := rest } p f)
    | [] =>
        match s.fifo_queue with
        | [] => none
        | v :: q =>
            match (s.page_table v).frame with
            | none => none
            | some f =>
                some (loadInto
                  (evictVictim { s with page_faults := s.page_faults + 1, fifo_queue := q } v f)
                  p f)

/-- The error taxonomy: the two `ValueError`s raised by vm.py's validation,
plus `internalError` for an uncaught exception inside the fault handler
(never reachable from `VM.init`). -/
inductive VmError where
  | outOfRange
  | invalidValue
  | internalError
deriving DecidableEq, Repr

/-- `page_no = vaddr // PAGE_SIZE` (Python floor division; `Int.ediv` agrees
with it for the positive divisor `PAGE_SIZE`). -/
def pageNo (vaddr : Int) : Int := Int.ediv vaddr (PAGE_SIZE : Int)

/-- `offset = vaddr % PAGE_SIZE` (Python modulus; in `[0, PAGE_SIZE)` for the
positive divisor, so the cast to `Nat` is lossless). -/
def pageOffset (vaddr : Int) : Nat := (Int.emod vaddr (PAGE_SIZE : Int)).toNat

/-- `VM.read_byte(vaddr)` from vm.py: translate, validate the upper bound
only, ensure residency, then read the byte at the offset of the resident
frame. -/
def read_byte (s : VM) (vaddr : Int) : Except VmError (VM × Nat) :=
  if (VIRTUAL_PAGES : Int) ≤ pageNo vaddr then Except.error VmError.outOfRange
  else
    match ensureInRam s (pageNo vaddr) with
    | none => Except.error VmError.internalError
    | some t =>
        match (t.page_table (pageNo vaddr)).frame with
        | none => Except.error VmError.internalError
        | some f =>
            if pageOffset vaddr < (t.frames f).length then
              Except.ok (t, (t.frames f).getD (pageOffset vaddr) 0)
            else Except.error VmError.internalError

/-- `VM.write_byte(vaddr, value)` from vm.py: translate, validate the page
upper bound then the byte range, ensure residency, store the byte, and set
the entry's dirty flag unconditionally. -/
def write_byte (s : VM) (vaddr : Int) (value : Int) : Except VmError VM :=
  if (VIRTUAL_PAGES : Int) ≤ pageNo vaddr then Except.error VmError.outOfRange
  else if ¬ (0 ≤ value ∧ value ≤ 255) then Except.error VmError.invalidValue
  else
    match ensureInRam s (pageNo vaddr) with
    | none => Except.error VmError.internalError
    | some t =>
        match (t.page_table (pageNo vaddr)).frame with
        | none => Except.error VmError.internalError
        | some f =>
            if pageOffset vaddr < (t.frames f).length then
              Except.ok
                { t with
                  frames := fun g =>
                    if g = f then (t.frames f).set (pageOffset vaddr) value.toNat
                    else t.frames g
                  page_table := fun q =>
                    if q = pageNo vaddr then { t.page_table q with dirty := true }
                    else t.page_table q }
            else Except.error VmError.internalError

/-- `VM.zero_page(page_no)` from vm.py: validate the upper bound, ensure
residency, overwrite the frame with zeros, set the dirty flag. -/
def zero_page (s : VM) (p : Int) : Except VmError VM :=
  if (VIRTUAL_PAGES : Int) ≤ p then Except.error VmError.outOfRange
  else
    match ensureInRam s p with
    | none => Except.error VmError.internalError
    | some t =>
        match (t.page_table p).frame with
        | none => Except.error VmError.internalError
        | some f =>
            Except.ok
              { t with
                frames := fun g => if g = f then List.replicate PAGE_SIZE 0 else t.frames g
                page_table := fun q =>
                  if q = p then { t.page_table q with dirty := true }
                  else t.page_table q }

/-- One public call of the vm.py API. -/
inductive Op where
  | read (vaddr : Int)
  | write (vaddr : Int) (value : Int)
  | zero (page_no : Int)

/-- The state after one public call.  A rejected call (a `ValueError` raised
by the validation in vm.py, before any mutation) leaves the state as it was. -/
def step (s : VM) : Op → VM
  | Op.read v =>
      match read_byte s v with
      | Except.ok r => r.1
      | Except.error _ => s
  | Op.write v x =>
      match write_byte s v x with
      | Except.ok t => t
      | Except.error _ => s
  | Op.zero p =>
      match zero_page s p with
      | Except.ok t => t
      | Except.error _ => s

/-- The state after a whole sequence of public calls, starting from a fresh
`VM()`. -/
def run (ops : List Op) : VM := ops.foldl step VM.init

/-- A state of the VM: one that some sequence of public calls produces. -/
def Reachable (s : VM) : Prop := ∃ ops : List Op, run ops = s

/-- The value `read_byte` returns, `none` when it raises. -/
def readValue (s : VM) (vaddr : Int) : Option Nat :=
  match read_byte s vaddr with
  | Except.ok r => some r.2
  | Except.error _ => none

/-- The state `ensureInRam` produces (the input state when it would raise). -/
def ensureRun (s : VM) (p : Int) : VM := (ensureInRam s p).getD s

/-- The present bit of a page's entry. -/
def presentAt (p : Int) (s : VM) : Bool := (s.page_table p).present

/-- The dirty bit of a page's entry. -/
def dirtyAt (p : Int) (s : VM) : Bool := (s.page_table p).dirty

/-- The frame of a page's entry. -/
def frameAt (p : Int) (s : VM) : Option Nat := (s.page_table p).frame

/-- Read accesses touching pages `0, 1, ..., n-1` in order (one read at the
first byte of each page). -/
def touchPages (n : Nat) : List Op :=
  (List.range n).map (fun i => Op.read ((i : Int) * (PAGE_SIZE : Int)))

/-- Fill all eight frames with dirty pages: one write to each of the pages
`0, 1, ..., 7`. -/
def dirtyFillOps : List Op :=
  (List.range 8).map (fun i => Op.write ((i : Int) * (PAGE_SIZE : Int)) 1)

/-- The dirty write-back scenario: write the value 99 to page 0 (at offset
10), then fault in the eight distinct pages `1, ..., 8`, forcing page 0 out. -/
def writeBackOps : List Op :=
  Op.write 10 99 :: (List.range 8).map (fun i => Op.read (((i : Int) + 1) * (PAGE_SIZE : Int)))

/-- The write-back scenario followed by a re-access of page 0, which evicts
the clean page 1. -/
def writeBackThenReload : List Op := writeBackOps ++ [Op.read 10]

/-- Well-formedness of a VM state.  `WF` packages the structural invariants
that vm.py maintains; `wf_reachable` below shows every reachable state
satisfies it. -/
structure WF (s : VM) : Prop where
  capacity : s.fifo_queue.length + s.free_list.length = PHYSICAL_FRAMES
  corr1 : ∀ p : Int, (s.page_table p).present = true →
    ∃ f, (s.page_table p).frame = some f ∧ s.frame_to_page f = some p
  corr2 : ∀ (f : Nat) (p : Int), s.frame_to_page f = some p →
    (s.page_table p).present = true ∧ (s.page_table p).frame = some f
  queue_mem : ∀ p : Int, p ∈ s.fifo_queue ↔ (s.page_table p).present = true
  queue_nodup : s.fifo_queue.Nodup
  free_lt : ∀ f ∈ s.free_list, f < PHYSICAL_FRAMES
  free_unmapped : ∀ f ∈ s.free_list, s.frame_to_page f = none
  free_nodup : s.free_list.Nodup
  frames_len : ∀ f : Nat, f < PHYSICAL_FRAMES → (s.frames f).length = PAGE_SIZE
  bs_len : ∀ (p : Int) (b : List Nat), s.backing_store p = some b → b.length = PAGE_SIZE
  frame_lt : ∀ (p : Int) (f : Nat), (s.page_table p).frame = some f → f < PHYSICAL_FRAMES

set_option maxRecDepth 100000

example : run [] = VM.init := rfl

example : (run (touchPages 9)).page_faults = 9 := by decide

example : (run (touchPages 9)).page_evictions = 1 := by decide

/-! ### Unfolding lemmas for the fault handler -/

theorem loadInto_page_table (s : VM) (p : Int) (f : Nat) (q : Int) :
    (loadInto s p f).page_table q =
      if q = p then { frame := some f, present := true, dirty := false }
      else s.page_table q := rfl

theorem loadInto_fifo_queue (s : VM) (p : Int) (f : Nat) :
    (loadInto s p f).fifo_queue = s.fifo_queue ++ [p] := rfl

theorem loadInto_frame_to_page (s : VM) (p : Int) (f : Nat) (g : Nat) :
    (loadInto s p f).frame_to_page g =
      if g = f then some p else s.frame_to_page g := rfl

theorem loadInto_free_list (s : VM) (p : Int) (f : Nat) :
    (loadInto s p f).free_list = s.free_list := rfl

theorem loadInto_backing_store (s : VM) (p : Int) (f : Nat) :
    (loadInto s p f).backing_store = s.backing_store := rfl

theorem loadInto_frames (s : VM) (p : Int) (f : Nat) (g : Nat) :
    (loadInto s p f).frames g =
      if g = f then
        match s.backing_store p with
        | some b => b
        | none => List.replicate PAGE_SIZE 0
      else s.frames g := rfl

theorem loadInto_page_faults (s : VM) (p : Int) (f : Nat) :
    (loadInto s p f).page_faults = s.page_faults := rfl

theorem loadInto_page_evictions (s : VM) (p : Int) (f : Nat) :
    (loadInto s p f).page_evictions = s.page_evictions := rfl

theorem evictVictim_page_table (s : VM) (v : Int) (f : Nat) (q : Int) :
    (evictVictim s v f).page_table q =
      if q = v then { frame := none, present := false, dirty := false }
      else s.page_table q := rfl

theorem evictVictim_fifo_queue (s : VM) (v : Int) (f : Nat) :
    (evictVictim s v f).fifo_queue = s.fifo_queue := rfl

theorem evictVictim_free_list (s : VM) (v : Int) (f : Nat) :
    (evictVictim s v f).free_list = s.free_list := rfl

theorem evictVictim_frames (s : VM) (v : Int) (f : Nat) (g : Nat) :
    (evictVictim s v f).frames g = s.frames g := rfl

theorem evictVictim_frame_to_page (s : VM) (v : Int) (f : Nat) (g : Nat) :
    (evictVictim s v f).frame_to_page g =
      if g = f then none else s.frame_to_page g := rfl

theorem evictVictim_backing_store (s : VM) (v : Int) (f : Nat) (q : Int) :
    (evictVictim s v f).backing_store q =
      if (s.page_table v).dirty ∧ q = v then some (s.frames f)
      else s.backing_store q := by
  show (if (s.page_table v).dirty then
          fun r => if r = v then some (s.frames f) else s.backing_store r
        else s.backing_store) q = _
  by_cases hd : (s.page_table v).dirty
  · simp [hd]
  · simp [hd]

theorem evictVictim_page_faults (s : VM) (v : Int) (f : Nat) :
    (evictVictim s v f).page_faults = s.page_faults := rfl

theorem evictVictim_page_evictions (s : VM) (v : Int) (f : Nat) :
    (evictVictim s v f).page_evictions = s.page_evictions + 1 := rfl

theorem ensureInRam_present (s : VM) (p : Int) (h : (s.page_table p).present = true) :
    ensureInRam s p = some s := by
  simp [ensureInRam, h]

theorem ensureInRam_alloc (s : VM) (p : Int) (f : Nat) (rest : List Nat)
    (hp : (s.page_table p).present = false) (hf : s.free_list = f :: rest) :
    ensureInRam s p =
      some (loadInto { s with page_faults := s.page_faults + 1, free_list := rest } p f) := by
  simp [ensureInRam, hp, hf]

theorem ensureInRam_evict (s : VM) (p v : Int) (q : List Int) (f : Nat)
    (hp : (s.page_table p).present = false) (hfree : s.free_list = [])
    (hq : s.fifo_queue = v :: q) (hvf : (s.page_table v).frame = some f) :
    ensureInRam s p =
      some (loadInto
        (evictVictim { s with page_faults := s.page_faults + 1, fifo_queue := q } v f)
        p f) := by
  simp [ensureInRam, hp, hfree, hq, hvf]

/-! ### The invariant holds initially -/

theorem wf_init : WF VM.init := by
  constructor
  case capacity => simp [VM.init]
  case corr1 => intro p hp; simp [VM.init] at hp
  case corr2 => intro f p hfp; simp [VM.init] at hfp
  case queue_mem => intro p; simp [VM.init]
  case queue_nodup => simp [VM.init]
  case free_lt => intro f hf; simpa [VM.init] using hf
  case free_unmapped => intro f _; rfl
  case free_nodup => exact List.nodup_range _
  case frames_len => intro f hf; simp [VM.init, hf]
  case bs_len => intro p b hb; simp [VM.init] at hb
  case frame_lt => intro p f hf; simp [VM.init] at hf

/-! ### The invariant is preserved by the fault handler -/

theorem not_mem_queue_of_not_present (s : VM) (p : Int) (hw : WF s)
    (hp : (s.page_table p).present = false) : p ∉ s.fifo_queue := by
  intro hmem
  have h := (hw.queue_mem p).1 hmem
  simp [hp] at h

theorem wf_alloc (s : VM) (p : Int) (f : Nat) (rest : List Nat)
    (hw : WF s) (hp : (s.page_table p).present = false) (hf : s.free_list = f :: rest) :
    WF (loadInto { s with page_faults := s.page_faults + 1, free_list := rest } p f) := by
  have hfm : f ∈ s.free_list := by rw [hf]; exact List.mem_cons_self f rest
  have hflt : f < PHYSICAL_FRAMES := hw.free_lt f hfm
  have hfu : s.frame_to_page f = none := hw.free_unmapped f hfm
  have hfnotin : f ∉ rest := by
    have h := hw.free_nodup
    rw [hf] at h
    exact (List.nodup_cons.mp h).1
  have hpq : p ∉ s.fifo_queue := not_mem_queue_of_not_present s p hw hp
  have hst : ∀ q : Int,
      ({ s with page_faults := s.page_faults + 1, free_list := rest } : VM).page_table q =
        s.page_table q := fun _ => rfl
  constructor
  case capacity =>
    show (s.fifo_queue ++ [p]).length + rest.length = PHYSICAL_FRAMES
    have h := hw.capacity
    rw [hf] at h
    simp only [List.length_append, List.length_cons, List.length_nil] at h ⊢
    omega
  case corr1 =>
    intro q hq
    rw [loadInto_page_table] at hq
    by_cases hqp : q = p
    · subst hqp
      refine ⟨f, ?_, ?_⟩
      · rw [loadInto_page_table]; simp
      · rw [loadInto_frame_to_page]; simp
    · rw [if_neg hqp, hst] at hq
      obtain ⟨fq, hfq, hmap⟩ := hw.corr1 q hq
      have hfqf : fq ≠ f := by
        intro h
        rw [h, hfu] at hmap
        exact Option.noConfusion hmap
      refine ⟨fq, ?_, ?_⟩
      · rw [loadInto_page_table, if_neg hqp, hst]
        exact hfq
      · rw [loadInto_frame_to_page, if_neg hfqf]
        exact hmap
  case corr2 =>
    intro g q hgq
    rw [loadInto_frame_to_page] at hgq
    by_cases hgf : g = f
    · rw [if_pos hgf] at hgq
      obtain rfl : p = q := Option.some.inj hgq
      subst hgf
      constructor
      · rw [loadInto_page_table]; simp
      · rw [loadInto_page_table]; simp
    · rw [if_neg hgf] at hgq
      obtain ⟨hpres, hfr⟩ := hw.corr2 g q hgq
      have hqp : q ≠ p := by
        intro h
        rw [h, hp] at hpres
        exact Bool.noConfusion hpres
      constructor
      · rw [loadInto_page_table, if_neg hqp, hst]
        exact hpres
      · rw [loadInto_page_table, if_neg hqp, hst]
        exact hfr
  case queue_mem =>
    intro q
    rw [loadInto_fifo_queue, loadInto_page_table]
    by_cases hqp : q = p
    · subst hqp
      simp
    · simp only [List.mem_append, List.mem_singleton, hqp, or_false, if_neg hqp, hst]
      exact hw.queue_mem q
  case queue_nodup =>
    rw [loadInto_fifo_queue]
    exact List.Nodup.append hw.queue_nodup (List.nodup_singleton p)
      (by simpa using hpq)
  case free_lt =>
    intro g hg
    rw [loadInto_free_list] at hg
    exact hw.free_lt g (by rw [hf]; exact List.mem_cons_of_mem f hg)
  case free_unmapped =>
    intro g hg
    rw [loadInto_free_list] at hg
    have hgf : g ≠ f := by
      intro h
      rw [h] at hg
      exact hfnotin hg
    rw [loadInto_frame_to_page, if_neg hgf]
    exact hw.free_unmapped g (by rw [hf]; exact List.mem_cons_of_mem f hg)
  case free_nodup =>
    show rest.Nodup
    have h := hw.free_nodup
    rw [hf] at h
    exact (List.nodup_cons.mp h).2
  case frames_len =>
    intro g hg
    rw [loadInto_frames]
    by_cases hgf : g = f
    · rw [if_pos hgf]
      cases hbs : s.backing_store p with
      | none => simp [hbs]
      | some b => simpa [hbs] using hw.bs_len p b hbs
    · rw [if_neg hgf]
      exact hw.frames_len g hg
  case bs_len =>
    intro q b hb
    rw [loadInto_backing_store] at hb
    exact hw.bs_len q b hb
  case frame_lt =>
    intro q g hg
    rw [loadInto_page_table] at hg
    by_cases hqp : q = p
    · rw [if_pos hqp] at hg
      have hfg : f = g := Option.some.inj hg
      rw [← hfg]
      exact hflt
    · rw [if_neg hqp, hst] at hg
      exact hw.frame_lt q g hg

theorem wf_evict (s : VM) (p v : Int) (q : List Int) (f : Nat)
    (hw : WF s) (hp : (s.page_table p).present = false) (hfree : s.free_list = [])
    (hq : s.fifo_queue = v :: q) (hvf : (s.page_table v).frame = some f) :
    WF (loadInto
      (evictVictim { s with page_faults := s.page_faults + 1, fifo_queue := q } v f)
      p f) := by
  have hs2pt : ∀ z : Int,
      ({ s with page_faults := s.page_faults + 1, fifo_queue := q } : VM).page_table z =
        s.page_table z := fun _ => rfl
  have hs2fr : ∀ g : Nat,
      ({ s with page_faults := s.page_faults + 1, fifo_queue := q } : VM).frames g =
        s.frames g := fun _ => rfl
  have hs2bs : ∀ z : Int,
      ({ s with page_faults := s.page_faults + 1, fifo_queue := q } : VM).backing_store z =
        s.backing_store z := fun _ => rfl
  have hs2map : ∀ g : Nat,
      ({ s with page_faults := s.page_faults + 1, fifo_queue := q } : VM).frame_to_page g =
        s.frame_to_page g := fun _ => rfl
  have hvmem : v ∈ s.fifo_queue := by rw [hq]; exact List.mem_cons_self v q
  have hvpres : (s.page_table v).present = true := (hw.queue_mem v).1 hvmem
  have hmapf : s.frame_to_page f = some v := by
    obtain ⟨fv, hfv, hm⟩ := hw.corr1 v hvpres
    rw [hvf] at hfv
    rw [← Option.some.inj hfv] at hm
    exact hm
  have hflt : f < PHYSICAL_FRAMES := hw.frame_lt v f hvf
  have hpq : p ∉ s.fifo_queue := not_mem_queue_of_not_present s p hw hp
  have hvp : v ≠ p := by
    intro h
    rw [h, hp] at hvpres
    exact Bool.noConfusion hvpres
  have hpnq : p ∉ q := by
    intro h
    exact hpq (by rw [hq]; exact List.mem_cons_of_mem v h)
  have hvnq : v ∉ q := by
    have h := hw.queue_nodup
    rw [hq] at h
    exact (List.nodup_cons.mp h).1
  have hqnodup : q.Nodup := by
    have h := hw.queue_nodup
    rw [hq] at h
    exact (List.nodup_cons.mp h).2
  constructor
  case capacity =>
    show (q ++ [p]).length + s.free_list.length = PHYSICAL_FRAMES
    have h := hw.capacity
    rw [hq, hfree] at h
    rw [hfree]
    simp only [List.length_append, List.length_cons, List.length_nil] at h ⊢
    omega
  case corr1 =>
    intro z hz
    rw [loadInto_page_table] at hz
    by_cases hzp : z = p
    · subst hzp
      refine ⟨f, ?_, ?_⟩
      · rw [loadInto_page_table]; simp
      · rw [loadInto_frame_to_page]; simp
    · rw [if_neg hzp, evictVictim_page_table] at hz
      by_cases hzv : z = v
      · rw [if_pos hzv] at hz
        exact absurd hz (by simp)
      · rw [if_neg hzv, hs2pt] at hz
        obtain ⟨fz, hfz, hmz⟩ := hw.corr1 z hz
        have hfzf : fz ≠ f := by
          intro h
          rw [h, hmapf] at hmz
          exact hzv (Option.some.inj hmz).symm
        refine ⟨fz, ?_, ?_⟩
        · rw [loadInto_page_table, if_neg hzp, evictVictim_page_table, if_neg hzv, hs2pt]
          exact hfz
        · rw [loadInto_frame_to_page, if_neg hfzf, evictVictim_frame_to_page, if_neg hfzf,
            hs2map]
          exact hmz
  case corr2 =>
    intro g z hgz
    rw [loadInto_frame_to_page] at hgz
    by_cases hgf : g = f
    · rw [if_pos hgf] at hgz
      obtain rfl : p = z := Option.some.inj hgz
      subst hgf
      constructor
      · rw [loadInto_page_table]; simp
      · rw [loadInto_page_table]; simp
    · rw [if_neg hgf, evictVictim_frame_to_page, if_neg hgf, hs2map] at hgz
      obtain ⟨hpres, hfr⟩ := hw.corr2 g z hgz
      have hzp : z ≠ p := by
        intro h
        rw [h, hp] at hpres
        exact Bool.noConfusion hpres
      have hzv : z ≠ v := by
        intro h
        rw [h, hvf] at hfr
        exact hgf (Option.some.inj hfr).symm
      constructor
      · rw [loadInto_page_table, if_neg hzp, evictVictim_page_table, if_neg hzv, hs2pt]
        exact hpres
      · rw [loadInto_page_table, if_neg hzp, evictVictim_page_table, if_neg hzv, hs2pt]
        exact hfr
  case queue_mem =>
    intro z
    rw [loadInto_fifo_queue, loadInto_page_table]
    show z ∈ q ++ [p] ↔ _
    by_cases hzp : z = p
    · subst hzp
      simp
    · rw [if_neg hzp, evictVictim_page_table]
      by_cases hzv : z = v
      · subst hzv
        simp only [List.mem_append, List.mem_singleton, hzp, or_false, if_pos rfl]
        simp [hvnq]
      · rw [if_neg hzv, hs2pt]
        simp only [List.mem_append, List.mem_singleton, hzp, or_false]
        constructor
        · intro hzq
          exact (hw.queue_mem z).1 (by rw [hq]; exact List.mem_cons_of_mem v hzq)
        · intro hzpres
          have h := (hw.queue_mem z).2 hzpres
          rw [hq] at h
          cases List.mem_cons.mp h with
          | inl h1 => exact absurd h1 hzv
          | inr h2 => exact h2
  case queue_nodup =>
    rw [loadInto_fifo_queue]
    show (q ++ [p]).Nodup
    exact List.Nodup.append hqnodup (List.nodup_singleton p) (by simpa using hpnq)
  case free_lt =>
    intro g hg
    rw [loadInto_free_list, evictVictim_free_list] at hg
    show g < PHYSICAL_FRAMES
    have : g ∈ s.free_list := hg
    rw [hfree] at this
    exact absurd this (List.not_mem_nil g)
  case free_unmapped =>
    intro g hg
    rw [loadInto_free_list, evictVictim_free_list] at hg
    have : g ∈ s.free_list := hg
    rw [hfree] at this
    exact absurd this (List.not_mem_nil g)
  case free_nodup =>
    show s.free_list.Nodup
    exact hw.free_nodup
  case frames_len =>
    intro g hg
    rw [loadInto_frames]
    by_cases hgf : g = f
    · rw [if_pos hgf, evictVictim_backing_store, hs2pt, hs2bs]
      have hpv : ¬ ((s.page_table v).dirty = true ∧ p = v) := by
        intro h
        exact hvp h.2.symm
      rw [if_neg hpv]
      cases hbs : s.backing_store p with
      | none => simp [hbs]
      | some b => simpa [hbs] using hw.bs_len p b hbs
    · rw [if_neg hgf, evictVictim_frames, hs2fr]
      exact hw.frames_len g hg
  case bs_len =>
    intro z b hb
    rw [loadInto_backing_store, evictVictim_backing_store, hs2pt, hs2fr, hs2bs] at hb
    by_cases hd : (s.page_table v).dirty = true ∧ z = v
    · rw [if_pos hd] at hb
      rw [← Option.some.inj hb]
      exact hw.frames_len f hflt
    · rw [if_neg hd] at hb
      exact hw.bs_len z b hb
  case frame_lt =>
    intro z g hg
    rw [loadInto_page_table] at hg
    by_cases hzp : z = p
    · rw [if_pos hzp] at hg
      have hfg : f = g := Option.some.inj hg
      rw [← hfg]
      exact hflt
    · rw [if_neg hzp, evictVictim_page_table] at hg
      by_cases hzv : z = v
      · rw [if_pos hzv] at hg
        exact absurd hg (by simp)
      · rw [if_neg hzv, hs2pt] at hg
        exact hw.frame_lt z g hg

/-! ### Inversion and totality of the fault handler -/

theorem ensure_shape (s : VM) (p : Int) (t : VM) (h : ensureInRam s p = some t) :
    ((s.page_table p).present = true ∧ t = s) ∨
    ((s.page_table p).present = false ∧
      ((∃ f rest, s.free_list = f :: rest ∧
          t = loadInto { s with page_faults := s.page_faults + 1, free_list := rest } p f) ∨
       (∃ v q f, s.free_list = [] ∧ s.fifo_queue = v :: q ∧
          (s.page_table v).frame = some f ∧
          t = loadInto
            (evictVictim { s with page_faults := s.page_faults + 1, fifo_queue := q } v f)
            p f))) := by
  by_cases hpres : (s.page_table p).present = true
  · left
    refine ⟨hpres, ?_⟩
    rw [ensureInRam_present s p hpres] at h
    exact (Option.some.inj h).symm
  · right
    have hp : (s.page_table p).present = false := by
      cases hb : (s.page_table p).present
      · rfl
      · exact absurd hb hpres
    refine ⟨hp, ?_⟩
    cases hf : s.free_list with
    | cons f rest =>
      left
      refine ⟨f, rest, rfl, ?_⟩
      rw [ensureInRam_alloc s p f rest hp hf] at h
      exact (Option.some.inj h).symm
    | nil =>
      right
      cases hq : s.fifo_queue with
      | nil =>
        exfalso
        simp [ensureInRam, hp, hf, hq] at h
      | cons v q =>
        cases hvf : (s.page_table v).frame with
        | none =>
          exfalso
          simp [ensureInRam, hp, hf, hq, hvf] at h
        | some f =>
          refine ⟨v, q, f, rfl, rfl, hvf, ?_⟩
          rw [ensureInRam_evict s p v q f hp hf hq hvf] at h
          rw [hf] at h
          exact (Option.some.inj h).symm

theorem wf_ensure (s : VM) (p : Int) (t : VM) (hw : WF s)
    (h : ensureInRam s p = some t) : WF t := by
  rcases ensure_shape s p t h with ⟨_, rfl⟩ | ⟨hp, hrest⟩
  · exact hw
  · rcases hrest with ⟨f, rest, hf, rfl⟩ | ⟨v, q, f, hfree, hq, hvf, rfl⟩
    · exact wf_alloc s p f rest hw hp hf
    · exact wf_evict s p v q f hw hp hfree hq hvf

theorem ensure_total (s : VM) (p : Int) (hw : WF s) :
    ∃ t, ensureInRam s p = some t := by
  by_cases hpres : (s.page_table p).present = true
  · exact ⟨s, ensureInRam_present s p hpres⟩
  · have hp : (s.page_table p).present = false := by
      cases hb : (s.page_table p).present
      · rfl
      · exact absurd hb hpres
    cases hf : s.free_list with
    | cons f rest => exact ⟨_, ensureInRam_alloc s p f rest hp hf⟩
    | nil =>
      cases hq : s.fifo_queue with
      | nil =>
        exfalso
        have h := hw.capacity
        rw [hq, hf] at h
        simp only [List.length_nil] at h
        exact absurd h (by decide)
      | cons v q =>
        have hvpres : (s.page_table v).present = true :=
          (hw.queue_mem v).1 (by rw [hq]; exact List.mem_cons_self v q)
        obtain ⟨f, hvf, _⟩ := hw.corr1 v hvpres
        exact ⟨_, ensureInRam_evict s p v q f hp hf hq hvf⟩

theorem ensure_run_eq (s : VM) (p : Int) (hw : WF s) :
    ensureInRam s p = some (ensureRun s p) ∧ WF (ensureRun s p) := by
  obtain ⟨t, ht⟩ := ensure_total s p hw
  have hrun : ensureRun s p = t := by rw [ensureRun, ht]; rfl
  rw [hrun]
  exact ⟨ht, wf_ensure s p t hw ht⟩

theorem ensure_present_after (s : VM) (p : Int) (t : VM)
    (h : ensureInRam s p = some t) : (t.page_table p).present = true := by
  rcases ensure_shape s p t h with ⟨hpres, rfl⟩ | ⟨_, hrest⟩
  · exact hpres
  · rcases hrest with ⟨f, rest, _, rfl⟩ | ⟨v, q, f, _, _, _, rfl⟩
    · rw [loadInto_page_table]; simp
    · rw [loadInto_page_table]; simp

theorem ensure_counts (s : VM) (p : Int) (t : VM) (h : ensureInRam s p = some t) :
    (t.page_faults = s.page_faults ∧ t.page_evictions = s.page_evictions) ∨
    (t.page_faults = s.page_faults + 1 ∧
      (t.page_evictions = s.page_evictions ∨
       t.page_evictions = s.page_evictions + 1)) := by
  rcases ensure_shape s p t h with ⟨_, rfl⟩ | ⟨_, hrest⟩
  · exact Or.inl ⟨rfl, rfl⟩
  · rcases hrest with ⟨f, rest, _, rfl⟩ | ⟨v, q, f, _, _, _, rfl⟩
    · exact Or.inr ⟨rfl, Or.inl rfl⟩
    · exact Or.inr ⟨rfl, Or.inr rfl⟩

theorem read_byte_inv (s : VM) (vaddr : Int) (t : VM) (x : Nat)
    (h : read_byte s vaddr = Except.ok (t, x)) :
    ¬ (VIRTUAL_PAGES : Int) ≤ pageNo vaddr ∧
    ensureInRam s (pageNo vaddr) = some t ∧
    ∃ f, (t.page_table (pageNo vaddr)).frame = some f ∧
      pageOffset vaddr < (t.frames f).length ∧
      x = (t.frames f).getD (pageOffset vaddr) 0 := by
  unfold read_byte at h
  split at h
  · exact Except.noConfusion h
  · rename_i hb
    split at h
    · exact Except.noConfusion h
    · rename_i u hE
      split at h
      · exact Except.noConfusion h
      · rename_i f hF
        split at h
        · rename_i hlen
          have h0 := Except.ok.inj h
          have h1 : u = t := congrArg Prod.fst h0
          have h2 : (u.frames f).getD (pageOffset vaddr) 0 = x := congrArg Prod.snd h0
          subst h1
          exact ⟨hb, hE, f, hF, hlen, h2.symm⟩
        · exact Except.noConfusion h

theorem write_byte_inv (s : VM) (vaddr value : Int) (t : VM)
    (h : write_byte s vaddr value = Except.ok t) :
    ¬ (VIRTUAL_PAGES : Int) ≤ pageNo vaddr ∧ (0 ≤ value ∧ value ≤ 255) ∧
    ∃ u f, ensureInRam s (pageNo vaddr) = some u ∧
      (u.page_table (pageNo vaddr)).frame = some f ∧
      pageOffset vaddr < (u.frames f).length ∧
      t = { u with
        frames := fun g =>
          if g = f then (u.frames f).set (pageOffset vaddr) value.toNat else u.frames g
        page_table := fun z =>
          if z = pageNo vaddr then { u.page_table z with dirty := true }
          else u.page_table z } := by
  unfold write_byte at h
  split at h
  · exact Except.noConfusion h
  · rename_i hb
    split at h
    · exact Except.noConfusion h
    · rename_i hval
      split at h
      · exact Except.noConfusion h
      · rename_i u hE
        split at h
        · exact Except.noConfusion h
        · rename_i f hF
          split at h
          · rename_i hlen
            exact ⟨hb, not_not.mp hval, u, f, hE, hF, hlen, (Except.ok.inj h).symm⟩
          · exact Except.noConfusion h

theorem zero_page_inv (s : VM) (p : Int) (t : VM)
    (h : zero_page s p = Except.ok t) :
    ¬ (VIRTUAL_PAGES : Int) ≤ p ∧
    ∃ u f, ensureInRam s p = some u ∧ (u.page_table p).frame = some f ∧
      t = { u with
        frames := fun g => if g = f then List.replicate PAGE_SIZE 0 else u.frames g
        page_table := fun z =>
          if z = p then { u.page_table z with dirty := true } else u.page_table z } := by
  unfold zero_page at h
  split at h
  · exact Except.noConfusion h
  · rename_i hb
    split at h
    · exact Except.noConfusion h
    · rename_i u hE
      split at h
      · exact Except.noConfusion h
      · rename_i f hF
        exact ⟨hb, u, f, hE, hF, (Except.ok.inj h).symm⟩

theorem pageOffset_lt (vaddr : Int) : pageOffset vaddr < PAGE_SIZE := by
  unfold pageOffset
  have h1 : 0 ≤ Int.emod vaddr (PAGE_SIZE : Int) :=
    Int.emod_nonneg vaddr (by simp [PAGE_SIZE])
  have h2 : Int.emod vaddr (PAGE_SIZE : Int) < (PAGE_SIZE : Int) :=
    Int.emod_lt_of_pos vaddr (by simp [PAGE_SIZE])
  omega

/-- Setting one byte in one frame and the dirty flag of one entry (the tail
of `write_byte`) preserves the invariant: the update changes no `present`
bit, no `frame` field, and no list length. -/
theorem wf_byte_write (u : VM) (page : Int) (f : Nat) (off : Nat) (val : Nat)
    (hw : WF u) :
    WF { u with
      frames := fun g => if g = f then (u.frames f).set off val else u.frames g
      page_table := fun z =>
        if z = page then { u.page_table z with dirty := true } else u.page_table z } := by
  have hpres : ∀ z : Int,
      ((if z = page then { u.page_table z with dirty := true } else u.page_table z) :
        PTEntry).present = (u.page_table z).present := by
    intro z
    by_cases h : z = page
    · simp [h]
    · simp [h]
  have hframe : ∀ z : Int,
      ((if z = page then { u.page_table z with dirty := true } else u.page_table z) :
        PTEntry).frame = (u.page_table z).frame := by
    intro z
    by_cases h : z = page
    · simp [h]
    · simp [h]
  constructor
  case capacity => exact hw.capacity
  case corr1 =>
    intro z hz
    have hz2 : (u.page_table z).present = true := by rw [← hpres z]; exact hz
    obtain ⟨fz, hfz, hmz⟩ := hw.corr1 z hz2
    refine ⟨fz, ?_, hmz⟩
    show ((if z = page then { u.page_table z with dirty := true } else u.page_table z) :
      PTEntry).frame = some fz
    rw [hframe]
    exact hfz
  case corr2 =>
    intro g z hgz
    obtain ⟨h1, h2⟩ := hw.corr2 g z hgz
    constructor
    · show ((if z = page then { u.page_table z with dirty := true } else u.page_table z) :
        PTEntry).present = true
      rw [hpres]
      exact h1
    · show ((if z = page then { u.page_table z with dirty := true } else u.page_table z) :
        PTEntry).frame = some g
      rw [hframe]
      exact h2
  case queue_mem =>
    intro z
    show z ∈ u.fifo_queue ↔
      ((if z = page then { u.page_table z with dirty := true } else u.page_table z) :
        PTEntry).present = true
    rw [hpres]
    exact hw.queue_mem z
  case queue_nodup => exact hw.queue_nodup
  case free_lt => exact hw.free_lt
  case free_unmapped => exact hw.free_unmapped
  case free_nodup => exact hw.free_nodup
  case frames_len =>
    intro g hg
    show ((if g = f then (u.frames f).set off val else u.frames g) : List Nat).length =
      PAGE_SIZE
    by_cases hgf : g = f
    · rw [if_pos hgf, List.length_set]
      exact hw.frames_len f (hgf ▸ hg)
    · rw [if_neg hgf]
      exact hw.frames_len g hg
  case bs_len => exact hw.bs_len
  case frame_lt =>
    intro z g hg
    have hg2 : (u.page_table z).frame = some g := by
      rw [← hframe z]
      exact hg
    exact hw.frame_lt z g hg2

/-- Overwriting one frame with zeros and setting one dirty flag (the tail of
`zero_page`) preserves the invariant. -/
theorem wf_zero_write (u : VM) (page : Int) (f : Nat) (hw : WF u) :
    WF { u with
      frames := fun g => if g = f then List.replicate PAGE_SIZE 0 else u.frames g
      page_table := fun z =>
        if z = page then { u.page_table z with dirty := true } else u.page_table z } := by
  have hpres : ∀ z : Int,
      ((if z = page then { u.page_table z with dirty := true } else u.page_table z) :
        PTEntry).present = (u.page_table z).present := by
    intro z
    by_cases h : z = page
    · simp [h]
    · simp [h]
  have hframe : ∀ z : Int,
      ((if z = page then { u.page_table z with dirty := true } else u.page_table z) :
        PTEntry).frame = (u.page_table z).frame := by
    intro z
    by_cases h : z = page
    · simp [h]
    · simp [h]
  constructor
  case capacity => exact hw.capacity
  case corr1 =>
    intro z hz
    have hz2 : (u.page_table z).present = true := by rw [← hpres z]; exact hz
    obtain ⟨fz, hfz, hmz⟩ := hw.corr1 z hz2
    refine ⟨fz, ?_, hmz⟩
    show ((if z = page then { u.page_table z with dirty := true } else u.page_table z) :
      PTEntry).frame = some fz
    rw [hframe]
    exact hfz
  case corr2 =>
    intro g z hgz
    obtain ⟨h1, h2⟩ := hw.corr2 g z hgz
    constructor
    · show ((if z = page then { u.page_table z with dirty := true } else u.page_table z) :
        PTEntry).present = true
      rw [hpres]
      exact h1
    · show ((if z = page then { u.page_table z with dirty := true } else u.page_table z) :
        PTEntry).frame = some g
      rw [hframe]
      exact h2
  case queue_mem =>
    intro z
    show z ∈ u.fifo_queue ↔
      ((if z = page then { u.page_table z with dirty := true } else u.page_table z) :
        PTEntry).present = true
    rw [hpres]
    exact hw.queue_mem z
  case queue_nodup => exact hw.queue_nodup
  case free_lt => exact hw.free_lt
  case free_unmapped => exact hw.free_unmapped
  case free_nodup => exact hw.free_nodup
  case frames_len =>
    intro g hg
    show ((if g = f then List.replicate PAGE_SIZE 0 else u.frames g) : List Nat).length =
      PAGE_SIZE
    by_cases hgf : g = f
    · rw [if_pos hgf, List.length_replicate]
    · rw [if_neg hgf]
      exact hw.frames_len g hg
  case bs_len => exact hw.bs_len
  case frame_lt =>
    intro z g hg
    have hg2 : (u.page_table z).frame = some g := by
      rw [← hframe z]
      exact hg
    exact hw.frame_lt z g hg2

theorem wf_step (s : VM) (op : Op) (hw : WF s) : WF (step s op) := by
  cases op with
  | read v =>
    show WF (match read_byte s v with
      | Except.ok r => r.1
      | Except.error _ => s)
    cases hR : read_byte s v with
    | error e => exact hw
    | ok r =>
      obtain ⟨t, x⟩ := r
      obtain ⟨_, hE, _⟩ := read_byte_inv s v t x hR
      exact wf_ensure s (pageNo v) t hw hE
  | write v val =>
    show WF (match write_byte s v val with
      | Except.ok t => t
      | Except.error _ => s)
    cases hW : write_byte s v val with
    | error e => exact hw
    | ok t =>
      obtain ⟨_, _, u, f, hE, hF, hlen, rfl⟩ := write_byte_inv s v val t hW
      exact wf_byte_write u (pageNo v) f (pageOffset v) val.toNat
        (wf_ensure s (pageNo v) u hw hE)
  | zero p =>
    show WF (match zero_page s p with
      | Except.ok t => t
      | Except.error _ => s)
    cases hZ : zero_page s p with
    | error e => exact hw
    | ok t =>
      obtain ⟨_, u, f, hE, hF, rfl⟩ := zero_page_inv s p t hZ
      exact wf_zero_write u p f (wf_ensure s p u hw hE)

theorem wf_foldl (ops : List Op) (s : VM) (hw : WF s) : WF (ops.foldl step s) := by
  induction ops generalizing s with
  | nil => exact hw
  | cons op rest ih => exact ih (step s op) (wf_step s op hw)

theorem wf_reachable (s : VM) (h : Reachable s) : WF s := by
  obtain ⟨ops, rfl⟩ := h
  exact wf_foldl ops VM.init wf_init

theorem reachable_ind (P : VM → Prop) (h0 : P VM.init)
    (hstep : ∀ s op, P s → P (step s op)) (s : VM) (hs : Reachable s) : P s := by
  obtain ⟨ops, rfl⟩ := hs
  suffices hgen : ∀ (l : List Op) (u : VM), P u → P (l.foldl step u) by
    exact hgen ops VM.init h0
  intro l
  induction l with
  | nil => intro u hu; exact hu
  | cons op rest ih => intro u hu; exact ih (step u op) (hstep u op hu)

/-! ### Equations for `step` and success of validated calls -/

theorem step_read_of_ok (s : VM) (v : Int) (t : VM) (x : Nat)
    (h : read_byte s v = Except.ok (t, x)) : step s (Op.read v) = t := by
  simp only [step, h]

theorem step_read_of_error (s : VM) (v : Int) (e : VmError)
    (h : read_byte s v = Except.error e) : step s (Op.read v) = s := by
  simp only [step, h]

theorem step_write_of_ok (s : VM) (v x : Int) (t : VM)
    (h : write_byte s v x = Except.ok t) : step s (Op.write v x) = t := by
  simp only [step, h]

theorem step_write_of_error (s : VM) (v x : Int) (e : VmError)
    (h : write_byte s v x = Except.error e) : step s (Op.write v x) = s := by
  simp only [step, h]

theorem step_zero_of_ok (s : VM) (p : Int) (t : VM)
    (h : zero_page s p = Except.ok t) : step s (Op.zero p) = t := by
  simp only [step, h]

theorem step_zero_of_error (s : VM) (p : Int) (e : VmError)
    (h : zero_page s p = Except.error e) : step s (Op.zero p) = s := by
  simp only [step, h]

theorem read_byte_ok (s : VM) (vaddr : Int) (hw : WF s)
    (hb : pageNo vaddr < (VIRTUAL_PAGES : Int)) :
    ∃ f, ((ensureRun s (pageNo vaddr)).page_table (pageNo vaddr)).frame = some f ∧
      read_byte s vaddr = Except.ok (ensureRun s (pageNo vaddr),
        ((ensureRun s (pageNo vaddr)).frames f).getD (pageOffset vaddr) 0) := by
  obtain ⟨hE, hwt⟩ := ensure_run_eq s (pageNo vaddr) hw
  have hpres := ensure_present_after s (pageNo vaddr) _ hE
  obtain ⟨f, hF, _⟩ := hwt.corr1 (pageNo vaddr) hpres
  have hflt := hwt.frame_lt (pageNo vaddr) f hF
  have hlen : pageOffset vaddr < ((ensureRun s (pageNo vaddr)).frames f).length := by
    rw [hwt.frames_len f hflt]
    exact pageOffset_lt vaddr
  have hnb : ¬ (VIRTUAL_PAGES : Int) ≤ pageNo vaddr := not_le.mpr hb
  refine ⟨f, hF, ?_⟩
  unfold read_byte
  simp only [if_neg hnb, hE, hF, if_pos hlen]

theorem write_byte_ok (s : VM) (vaddr value : Int) (hw : WF s)
    (hb : pageNo vaddr < (VIRTUAL_PAGES : Int)) (hv : 0 ≤ value ∧ value ≤ 255) :
    ∃ f, ((ensureRun s (pageNo vaddr)).page_table (pageNo vaddr)).frame = some f ∧
      write_byte s vaddr value = Except.ok
        { ensureRun s (pageNo vaddr) with
          frames := fun g =>
            if g = f then
              ((ensureRun s (pageNo vaddr)).frames f).set (pageOffset vaddr) value.toNat
            else (ensureRun s (pageNo vaddr)).frames g
          page_table := fun z =>
            if z = pageNo vaddr then
              { (ensureRun s (pageNo vaddr)).page_table z with dirty := true }
            else (ensureRun s (pageNo vaddr)).page_table z } := by
  obtain ⟨hE, hwt⟩ := ensure_run_eq s (pageNo vaddr) hw
  have hpres := ensure_present_after s (pageNo vaddr) _ hE
  obtain ⟨f, hF, _⟩ := hwt.corr1 (pageNo vaddr) hpres
  have hflt := hwt.frame_lt (pageNo vaddr) f hF
  have hlen : pageOffset vaddr < ((ensureRun s (pageNo vaddr)).frames f).length := by
    rw [hwt.frames_len f hflt]
    exact pageOffset_lt vaddr
  have hnb : ¬ (VIRTUAL_PAGES : Int) ≤ pageNo vaddr := not_le.mpr hb
  have hvv : ¬ ¬ (0 ≤ value ∧ value ≤ 255) := not_not.mpr hv
  refine ⟨f, hF, ?_⟩
  unfold write_byte
  simp only [if_neg hnb, if_neg hvv, hE, hF, if_pos hlen]

theorem zero_page_ok (s : VM) (p : Int) (hw : WF s)
    (hb : p < (VIRTUAL_PAGES : Int)) :
    ∃ f, ((ensureRun s p).page_table p).frame = some f ∧
      zero_page s p = Except.ok
        { ensureRun s p with
          frames := fun g =>
            if g = f then List.replicate PAGE_SIZE 0 else (ensureRun s p).frames g
          page_table := fun z =>
            if z = p then { (ensureRun s p).page_table z with dirty := true }
            else (ensureRun s p).page_table z } := by
  obtain ⟨hE, hwt⟩ := ensure_run_eq s p hw
  have hpres := ensure_present_after s p _ hE
  obtain ⟨f, hF, _⟩ := hwt.corr1 p hpres
  have hnb : ¬ (VIRTUAL_PAGES : Int) ≤ p := not_le.mpr hb
  refine ⟨f, hF, ?_⟩
  unfold zero_page
  simp only [if_neg hnb, hE, hF]

theorem pageNo_div (vaddr : Int) : pageNo vaddr = vaddr / 256 := rfl

theorem virtualPages_int : (VIRTUAL_PAGES : Int) = 16 := rfl

/-- A second read at the same address, immediately after a completed read,
returns the same state and the same value: the page is now present, so the
fast path of the fault handler applies. -/
theorem read_byte_idem (s t : VM) (vaddr : Int) (x : Nat)
    (h : read_byte s vaddr = Except.ok (t, x)) :
    read_byte t vaddr = Except.ok (t, x) := by
  obtain ⟨hb, hE, f, hF, hlen, hx⟩ := read_byte_inv s vaddr t x h
  have hpres := ensure_present_after s (pageNo vaddr) t hE
  have hE2 : ensureInRam t (pageNo vaddr) = some t := ensureInRam_present t _ hpres
  unfold read_byte
  simp only [if_neg hb, hE2, hF, if_pos hlen, hx]

/-- Reading the address just written through `write_byte`'s final state
returns the written byte. -/
theorem read_after_write (t : VM) (vaddr : Int) (f : Nat) (val : Nat)
    (hb : ¬ (VIRTUAL_PAGES : Int) ≤ pageNo vaddr)
    (hpres : (t.page_table (pageNo vaddr)).present = true)
    (hF : (t.page_table (pageNo vaddr)).frame = some f)
    (hlen : pageOffset vaddr < (t.frames f).length) :
    read_byte
      { t with
        frames := fun g =>
          if g = f then (t.frames f).set (pageOffset vaddr) val else t.frames g
        page_table := fun z =>
          if z = pageNo vaddr then { t.page_table z with dirty := true }
          else t.page_table z }
      vaddr =
    Except.ok
      ({ t with
        frames := fun g =>
          if g = f then (t.frames f).set (pageOffset vaddr) val else t.frames g
        page_table := fun z =>
          if z = pageNo vaddr then { t.page_table z with dirty := true }
          else t.page_table z }, val) := by
  set W : VM :=
    { t with
      frames := fun g =>
        if g = f then (t.frames f).set (pageOffset vaddr) val else t.frames g
      page_table := fun z =>
        if z = pageNo vaddr then { t.page_table z with dirty := true }
        else t.page_table z } with hWdef
  have hWpres : (W.page_table (pageNo vaddr)).present = true := by
    show ((if pageNo vaddr = pageNo vaddr then
        { t.page_table (pageNo vaddr) with dirty := true }
      else t.page_table (pageNo vaddr)) : PTEntry).present = true
    rw [if_pos rfl]
    exact hpres
  have hWF : (W.page_table (pageNo vaddr)).frame = some f := by
    show ((if pageNo vaddr = pageNo vaddr then
        { t.page_table (pageNo vaddr) with dirty := true }
      else t.page_table (pageNo vaddr)) : PTEntry).frame = some f
    rw [if_pos rfl]
    exact hF
  have hWfr : W.frames f = (t.frames f).set (pageOffset vaddr) val := by
    show (if f = f then (t.frames f).set (pageOffset vaddr) val else t.frames f) = _
    rw [if_pos rfl]
  have hWlen : pageOffset vaddr < (W.frames f).length := by
    rw [hWfr, List.length_set]
    exact hlen
  have hval2 : ((t.frames f).set (pageOffset vaddr) val).getD (pageOffset vaddr) 0 = val := by
    rw [List.getD_eq_getElem?_getD, List.getElem?_set_self (by simpa using hlen)]
    rfl
  have hE : ensureInRam W (pageNo vaddr) = some W := ensureInRam_present W _ hWpres
  unfold read_byte
  simp [if_neg hb, hE, hF, List.length_set, hlen, hval2]

/-- Per-operation change of the two statistics counters. -/
theorem step_counts (s : VM) (op : Op) :
    ((step s op).page_faults = s.page_faults ∧
      (step s op).page_evictions = s.page_evictions) ∨
    ((step s op).page_faults = s.page_faults + 1 ∧
      ((step s op).page_evictions = s.page_evictions ∨
       (step s op).page_evictions = s.page_evictions + 1)) := by
  cases op with
  | read v =>
    cases hR : read_byte s v with
    | error e => rw [step_read_of_error s v e hR]; exact Or.inl ⟨rfl, rfl⟩
    | ok r =>
      obtain ⟨t, x⟩ := r
      rw [step_read_of_ok s v t x hR]
      obtain ⟨_, hE, _⟩ := read_byte_inv s v t x hR
      exact ensure_counts s (pageNo v) t hE
  | write v val =>
    cases hW : write_byte s v val with
    | error e => rw [step_write_of_error s v val e hW]; exact Or.inl ⟨rfl, rfl⟩
    | ok t =>
      rw [step_write_of_ok s v val t hW]
      obtain ⟨_, _, u, f, hE, hF, hlen, rfl⟩ := write_byte_inv s v val t hW
      exact ensure_counts s (pageNo v) u hE
  | zero p =>
    cases hZ : zero_page s p with
    | error e => rw [step_zero_of_error s p e hZ]; exact Or.inl ⟨rfl, rfl⟩
    | ok t =>
      rw [step_zero_of_ok s p t hZ]
      obtain ⟨_, u, f, hE, hF, rfl⟩ := zero_page_inv s p t hZ
      exact ensure_counts s p u hE

/-! ### The claims -/

/-- C1: in every reachable VM state, for every virtual address whose page
number is below `VIRTUAL_PAGES` and every byte value `v` in `[0, 255]`,
`write_byte(vaddr, v)` succeeds and an immediately following
`read_byte(vaddr)` returns `v`. -/
theorem claim_write_read_roundtrip (s : VM) (vaddr v : Int) (hs : Reachable s)
    (hb : pageNo vaddr < (VIRTUAL_PAGES : Int)) (h0 : 0 ≤ v) (h1 : v ≤ 255) :
    write_byte s vaddr v = Except.ok (step s (Op.write vaddr v)) ∧
    readValue (step s (Op.write vaddr v)) vaddr = some v.toNat := by
  have hw := wf_reachable s hs
  obtain ⟨f, hF, hW⟩ := write_byte_ok s vaddr v hw hb ⟨h0, h1⟩
  have hstep := step_write_of_ok s vaddr v _ hW
  constructor
  · rw [hstep]
    exact hW
  · rw [hstep]
    obtain ⟨hE, hwt⟩ := ensure_run_eq s (pageNo vaddr) hw
    have hpres := ensure_present_after s (pageNo vaddr) _ hE
    have hflt := hwt.frame_lt (pageNo vaddr) f hF
    have hlen : pageOffset vaddr < ((ensureRun s (pageNo vaddr)).frames f).length := by
      rw [hwt.frames_len f hflt]
      exact pageOffset_lt vaddr
    have hnb : ¬ (VIRTUAL_PAGES : Int) ≤ pageNo vaddr := not_le.mpr hb
    have hr := read_after_write (ensureRun s (pageNo vaddr)) vaddr f v.toNat hnb hpres hF hlen
    simp only [readValue, hr]

theorem claim_write_read_roundtrip_witness :
    write_byte VM.init 778 99 = Except.ok (step VM.init (Op.write 778 99)) ∧
    readValue (step VM.init (Op.write 778 99)) 778 = some 99 := by
  have h := claim_write_read_roundtrip VM.init 778 99 ⟨[], rfl⟩ (by decide) (by decide)
    (by decide)
  exact ⟨h.1, h.2⟩

/-- C2: in the initial state and after every completed public operation,
the number of resident pages (the FIFO queue length) plus the number of
free frames (the free-list length) equals `PHYSICAL_FRAMES`. -/
theorem claim_capacity_invariant (s : VM) (hs : Reachable s) :
    s.fifo_queue.length + s.free_list.length = PHYSICAL_FRAMES :=
  (wf_reachable s hs).capacity

theorem claim_capacity_invariant_witness :
    (run (touchPages 3)).fifo_queue.length + (run (touchPages 3)).free_list.length =
      PHYSICAL_FRAMES :=
  claim_capacity_invariant (run (touchPages 3)) ⟨touchPages 3, rfl⟩

/-- C5: all three public operations reject a page number at or above
`VIRTUAL_PAGES` with the out-of-range error, and `write_byte` additionally
rejects a byte value outside `[0, 255]` with the invalid-value error, in
every case before any fault handling runs, leaving the whole state (page
table, frames, queue, free list, backing store, and both counters)
unchanged. -/
theorem claim_validation_rejects :
    (∀ (s : VM) (vaddr : Int), (VIRTUAL_PAGES : Int) ≤ pageNo vaddr →
      read_byte s vaddr = Except.error VmError.outOfRange ∧ step s (Op.read vaddr) = s) ∧
    (∀ (s : VM) (vaddr value : Int), (VIRTUAL_PAGES : Int) ≤ pageNo vaddr →
      write_byte s vaddr value = Except.error VmError.outOfRange ∧
      step s (Op.write vaddr value) = s) ∧
    (∀ (s : VM) (p : Int), (VIRTUAL_PAGES : Int) ≤ p →
      zero_page s p = Except.error VmError.outOfRange ∧ step s (Op.zero p) = s) ∧
    (∀ (s : VM) (vaddr value : Int), pageNo vaddr < (VIRTUAL_PAGES : Int) →
      ¬ (0 ≤ value ∧ value ≤ 255) →
      write_byte s vaddr value = Except.error VmError.invalidValue ∧
      step s (Op.write vaddr value) = s) := by
  refine ⟨?_, ?_, ?_, ?_⟩
  · intro s vaddr h
    have hr : read_byte s vaddr = Except.error VmError.outOfRange := by
      unfold read_byte
      rw [if_pos h]
    exact ⟨hr, step_read_of_error s vaddr _ hr⟩
  · intro s vaddr value h
    have hr : write_byte s vaddr value = Except.error VmError.outOfRange := by
      unfold write_byte
      rw [if_pos h]
    exact ⟨hr, step_write_of_error s vaddr value _ hr⟩
  · intro s p h
    have hr : zero_page s p = Except.error VmError.outOfRange := by
      unfold zero_page
      rw [if_pos h]
    exact ⟨hr, step_zero_of_error s p _ hr⟩
  · intro s vaddr value hb hval
    have hr : write_byte s vaddr value = Except.error VmError.invalidValue := by
      unfold write_byte
      rw [if_neg (not_le.mpr hb), if_pos hval]
    exact ⟨hr, step_write_of_error s vaddr value _ hr⟩

theorem claim_validation_rejects_witness :
    read_byte VM.init 4096 = Except.error VmError.outOfRange ∧
    step VM.init (Op.read 4096) = VM.init ∧
    write_byte VM.init 4096 0 = Except.error VmError.outOfRange ∧
    zero_page VM.init 16 = Except.error VmError.outOfRange ∧
    write_byte VM.init 0 256 = Except.error VmError.invalidValue ∧
    step VM.init (Op.write 0 256) = VM.init := by
  have h := claim_validation_rejects
  have h1 := h.1 VM.init 4096 (by decide)
  have h2 := h.2.1 VM.init 4096 0 (by decide)
  have h3 := h.2.2.1 VM.init 16 (by decide)
  have h4 := h.2.2.2 VM.init 0 256 (by decide) (by decide)
  exact ⟨h1.1, h1.2, h2.1, h3.1, h4.1, h4.2⟩

/-- C6: when the entry of the requested page is already present, the fault
handler returns the state unchanged (zero side effects), and a second
`read_byte` at the same address immediately after a completed first one
returns the same state and value, with zero additional page faults. -/
theorem claim_fast_path_no_side_effects :
    (∀ (s : VM) (p : Int), (s.page_table p).present = true → ensureInRam s p = some s) ∧
    (∀ (s t : VM) (vaddr : Int) (x : Nat), read_byte s vaddr = Except.ok (t, x) →
      read_byte t vaddr = Except.ok (t, x)) :=
  ⟨fun s p h => ensureInRam_present s p h,
   fun s t vaddr x h => read_byte_idem s t vaddr x h⟩

theorem claim_fast_path_no_side_effects_witness :
    ensureInRam (run (touchPages 1)) 0 = some (run (touchPages 1)) ∧
    read_byte (step VM.init (Op.read 0)) 0 =
      Except.ok (step VM.init (Op.read 0), 0) := by
  have h := claim_fast_path_no_side_effects
  exact ⟨h.1 (run (touchPages 1)) 0 (by decide), h.2 VM.init (step VM.init (Op.read 0)) 0 0 rfl⟩

/-- C3: whenever the fault handler runs with an empty free list, the
eviction victim is the page popped from the front of the FIFO residency
queue (pure insertion order); concretely, with `PHYSICAL_FRAMES = 8`,
touching pages 0..8 in order evicts page 0 (the first loaded), and touching
page 0 again afterwards incurs a fresh page fault. -/
theorem claim_fifo_victim_front :
    (∀ (s : VM) (p v : Int) (q : List Int), Reachable s →
      (s.page_table p).present = false → s.free_list = [] → s.fifo_queue = v :: q →
      ensureInRam s p = some (ensureRun s p) ∧
      (ensureRun s p).fifo_queue = q ++ [p] ∧
      ((ensureRun s p).page_table v).present = false ∧
      (ensureRun s p).page_evictions = s.page_evictions + 1) ∧
    ((run (touchPages 9)).page_faults = 9 ∧
     (run (touchPages 9)).page_evictions = 1 ∧
     ((run (touchPages 9)).page_table 0).present = false ∧
     ((run (touchPages 9)).page_table 8).present = true ∧
     (step (run (touchPages 9)) (Op.read 0)).page_faults = 10) := by
  constructor
  · intro s p v q hs hp hfree hq
    have hw := wf_reachable s hs
    have hvpres : (s.page_table v).present = true :=
      (hw.queue_mem v).1 (by rw [hq]; exact List.mem_cons_self v q)
    obtain ⟨f, hvf, _⟩ := hw.corr1 v hvpres
    have hvp : v ≠ p := by
      intro h
      rw [h, hp] at hvpres
      exact Bool.noConfusion hvpres
    have hE := ensureInRam_evict s p v q f hp hfree hq hvf
    have hrun : ensureRun s p =
        loadInto (evictVictim { s with page_faults := s.page_faults + 1, fifo_queue := q } v f)
          p f := by
      rw [ensureRun, hE]
      rfl
    refine ⟨?_, ?_, ?_, ?_⟩
    · rw [hrun]
      exact hE
    · rw [hrun, loadInto_fifo_queue, evictVictim_fifo_queue]
    · rw [hrun, loadInto_page_table, if_neg hvp, evictVictim_page_table, if_pos rfl]
    · rw [hrun, loadInto_page_evictions, evictVictim_page_evictions]
  · exact ⟨by decide, by decide, by decide, by decide, by decide⟩

theorem claim_fifo_victim_front_witness :
    ensureInRam (run (touchPages 8)) 8 = some (ensureRun (run (touchPages 8)) 8) ∧
    (ensureRun (run (touchPages 8)) 8).fifo_queue = [1, 2, 3, 4, 5, 6, 7] ++ [8] ∧
    ((ensureRun (run (touchPages 8)) 8).page_table 0).present = false ∧
    (ensureRun (run (touchPages 8)) 8).page_evictions =
      (run (touchPages 8)).page_evictions + 1 := by
  have h := claim_fifo_victim_front
  exact h.1 (run (touchPages 8)) 8 0 [1, 2, 3, 4, 5, 6, 7] ⟨touchPages 8, rfl⟩
    (by decide) (by decide) (by decide)

/-- C4: at an eviction the victim frame's bytes are stored into the backing
store under the victim page number exactly when the victim's dirty flag is
set (overwriting any prior copy), and the backing store changes at no other
key; concretely, a written-then-evicted page reads back its written value,
while a loaded-but-never-written page leaves no backing-store entry and
re-reads as zero. -/
theorem claim_dirty_writeback :
    (∀ (s : VM) (p v z : Int) (q : List Int) (f : Nat), Reachable s →
      (s.page_table p).present = false → s.free_list = [] → s.fifo_queue = v :: q →
      (s.page_table v).frame = some f →
      ensureInRam s p = some (ensureRun s p) ∧
      (ensureRun s p).backing_store v =
        (if (s.page_table v).dirty = true then some (s.frames f)
         else s.backing_store v) ∧
      (z ≠ v → (ensureRun s p).backing_store z = s.backing_store z)) ∧
    (readValue (run writeBackOps) 10 = some 99 ∧
     ((run writeBackOps).backing_store 0).isSome = true ∧
     (run writeBackThenReload).backing_store 1 = none ∧
     readValue (run writeBackThenReload) 266 = some 0) := by
  constructor
  · intro s p v z q f hs hp hfree hq hvf
    have hw := wf_reachable s hs
    have hE := ensureInRam_evict s p v q f hp hfree hq hvf
    have hrun : ensureRun s p =
        loadInto (evictVictim { s with page_faults := s.page_faults + 1, fifo_queue := q } v f)
          p f := by
      rw [ensureRun, hE]
      rfl
    refine ⟨?_, ?_, ?_⟩
    · rw [hrun]
      exact hE
    · rw [hrun, loadInto_backing_store, evictVictim_backing_store]
      by_cases hd : (s.page_table v).dirty = true
      · rw [if_pos ⟨hd, rfl⟩, if_pos hd]
      · have hd2 : ¬ ((({ s with page_faults := s.page_faults + 1, fifo_queue := q } :
            VM).page_table v).dirty = true ∧ v = v) := fun hc => hd hc.1
        rw [if_neg hd2, if_neg hd]
    · intro hz
      rw [hrun, loadInto_backing_store, evictVictim_backing_store]
      have hd2 : ¬ ((({ s with page_faults := s.page_faults + 1, fifo_queue := q } :
          VM).page_table v).dirty = true ∧ z = v) := fun hc => hz hc.2
      rw [if_neg hd2]
  · exact ⟨by decide, by decide, by decide, by decide⟩

theorem claim_dirty_writeback_witness :
    ensureInRam (run dirtyFillOps) 8 = some (ensureRun (run dirtyFillOps) 8) ∧
    (ensureRun (run dirtyFillOps) 8).backing_store 0 =
      (if ((run dirtyFillOps).page_table 0).dirty = true
       then some ((run dirtyFillOps).frames 0)
       else (run dirtyFillOps).backing_store 0) ∧
    (3 ≠ (0 : Int) →
      (ensureRun (run dirtyFillOps) 8).backing_store 3 =
        (run dirtyFillOps).backing_store 3) := by
  have h := claim_dirty_writeback
  exact h.1 (run dirtyFillOps) 8 0 3 [1, 2, 3, 4, 5, 6, 7] 0 ⟨dirtyFillOps, rfl⟩
    (by decide) (by decide) (by decide) (by decide)

/-- C7: in every reachable state the page table, the reverse map and the
FIFO queue correspond exactly: a present page with frame `f` is mapped back
by `f` and sits in the queue exactly once; a mapped frame belongs to a
present page with that frame; and every queued page is present. -/
theorem claim_correspondence (s : VM) (p : Int) (f : Nat) (z : Int) (hs : Reachable s) :
    ((s.page_table p).present = true → (s.page_table p).frame = some f →
      s.frame_to_page f = some p ∧ s.fifo_queue.count p = 1) ∧
    (s.frame_to_page f = some p →
      (s.page_table p).present = true ∧ (s.page_table p).frame = some f) ∧
    (z ∈ s.fifo_queue → (s.page_table z).present = true) := by
  have hw := wf_reachable s hs
  refine ⟨?_, ?_, ?_⟩
  · intro hpres hF
    obtain ⟨f0, hf0, hm⟩ := hw.corr1 p hpres
    have hff : f0 = f := by
      rw [hF] at hf0
      exact (Option.some.inj hf0).symm
    subst hff
    exact ⟨hm, List.count_eq_one_of_mem hw.queue_nodup ((hw.queue_mem p).2 hpres)⟩
  · exact fun h => hw.corr2 f p h
  · exact fun h => (hw.queue_mem z).1 h

theorem claim_correspondence_witness :
    (((run [Op.write 778 5]).page_table 3).present = true →
      ((run [Op.write 778 5]).page_table 3).frame = some 0 →
      (run [Op.write 778 5]).frame_to_page 0 = some 3 ∧
      (run [Op.write 778 5]).fifo_queue.count 3 = 1) ∧
    ((run [Op.write 778 5]).frame_to_page 0 = some 3 →
      ((run [Op.write 778 5]).page_table 3).present = true ∧
      ((run [Op.write 778 5]).page_table 3).frame = some 0) ∧
    ((3 : Int) ∈ (run [Op.write 778 5]).fifo_queue →
      ((run [Op.write 778 5]).page_table 3).present = true) :=
  claim_correspondence (run [Op.write 778 5]) 3 0 3 ⟨[Op.write 778 5], rfl⟩

/-- C8 (counterexample to the claim as stated): a completed `read_byte` can
change a dirty flag.  After eight dirty pages fill all frames, reading page
8 evicts page 0 and clears its dirty flag from `true` to `false`, so
"read_byte never changes any dirty flag" is false on this code. -/
theorem claim_read_changes_dirty_counterexample :
    ((run dirtyFillOps).page_table 0).dirty = true ∧
    (readValue (run dirtyFillOps) 2048).isSome = true ∧
    ((step (run dirtyFillOps) (Op.read 2048)).page_table 0).dirty = false := by
  exact ⟨by decide, by decide, by decide⟩

/-- C8 (amended): after the fault path completes, the faulting page's entry
is present and clean even when loaded from the backing store; every
validated `write_byte` sets the target entry's dirty flag unconditionally;
and `read_byte` never sets a dirty flag to `true` — the only dirty-flag
change a read can cause is clearing the evicted victim's flag during fault
handling. -/
theorem claim_dirty_flag_protocol :
    (∀ (s : VM) (p : Int) (t : VM), (s.page_table p).present = false →
      ensureInRam s p = some t →
      (t.page_table p).present = true ∧ (t.page_table p).dirty = false) ∧
    (∀ (s : VM) (vaddr value : Int) (t : VM), write_byte s vaddr value = Except.ok t →
      (t.page_table (pageNo vaddr)).dirty = true) ∧
    (∀ (s : VM) (vaddr : Int) (t : VM) (x : Nat) (z : Int),
      read_byte s vaddr = Except.ok (t, x) →
      (t.page_table z).dirty = true → (s.page_table z).dirty = true) := by
  refine ⟨?_, ?_, ?_⟩
  · intro s p t hp hE
    rcases ensure_shape s p t hE with ⟨hpres, rfl⟩ | ⟨_, hrest⟩
    · rw [hp] at hpres
      exact Bool.noConfusion hpres
    · rcases hrest with ⟨f, rest, _, rfl⟩ | ⟨v, q, f, _, _, _, rfl⟩
      · rw [loadInto_page_table, if_pos rfl]
        exact ⟨rfl, rfl⟩
      · rw [loadInto_page_table, if_pos rfl]
        exact ⟨rfl, rfl⟩
  · intro s vaddr value t hW
    obtain ⟨_, _, u, f, hE, hF, hlen, rfl⟩ := write_byte_inv s vaddr value t hW
    show ((if pageNo vaddr = pageNo vaddr then
        { u.page_table (pageNo vaddr) with dirty := true }
      else u.page_table (pageNo vaddr)) : PTEntry).dirty = true
    rw [if_pos rfl]
  · intro s vaddr t x z hR hdirty
    obtain ⟨_, hE, _⟩ := read_byte_inv s vaddr t x hR
    rcases ensure_shape s (pageNo vaddr) t hE with ⟨_, rfl⟩ | ⟨_, hrest⟩
    · exact hdirty
    · rcases hrest with ⟨f, rest, _, rfl⟩ | ⟨v, q, f, _, _, _, rfl⟩
      · rw [loadInto_page_table] at hdirty
        by_cases hzp : z = pageNo vaddr
        · rw [if_pos hzp] at hdirty
          exact Bool.noConfusion hdirty
        · rw [if_neg hzp] at hdirty
          exact hdirty
      · rw [loadInto_page_table] at hdirty
        by_cases hzp : z = pageNo vaddr
        · rw [if_pos hzp] at hdirty
          exact Bool.noConfusion hdirty
        · rw [if_neg hzp, evictVictim_page_table] at hdirty
          by_cases hzv : z = v
          · rw [if_pos hzv] at hdirty
            exact Bool.noConfusion hdirty
          · rw [if_neg hzv] at hdirty
            exact hdirty

theorem claim_dirty_flag_protocol_witness :
    ((ensureRun VM.init 3).page_table 3).present = true ∧
    ((ensureRun VM.init 3).page_table 3).dirty = false ∧
    ((step VM.init (Op.write 778 5)).page_table 3).dirty = true ∧
    (((step (run [Op.write 0 5]) (Op.read 0)).page_table 0).dirty = true →
      ((run [Op.write 0 5]).page_table 0).dirty = true) := by
  have h := claim_dirty_flag_protocol
  have h1 := h.1 VM.init 3 (ensureRun VM.init 3) (by decide) rfl
  have h2 := h.2.1 VM.init 778 5 (step VM.init (Op.write 778 5)) rfl
  have h3 := h.2.2 (run [Op.write 0 5]) 0 (step (run [Op.write 0 5]) (Op.read 0)) 5 0 rfl
  exact ⟨h1.1, h1.2, h2, h3⟩

/-- C9: validation only checks the upper bound, so every negative virtual
address (and negative page number for `zero_page`) passes it: the computed
page number is negative, the call proceeds into fault handling instead of
raising the out-of-range error, and a page table entry for the negative
page number becomes present. -/
theorem claim_negative_validation (s : VM) (vaddr p value : Int) (hs : Reachable s)
    (hneg : vaddr < 0) (hp : p < 0) (h0 : 0 ≤ value) (h1 : value ≤ 255) :
    pageNo vaddr < 0 ∧
    (readValue s vaddr).isSome = true ∧
    ((step s (Op.read vaddr)).page_table (pageNo vaddr)).present = true ∧
    write_byte s vaddr value = Except.ok (step s (Op.write vaddr value)) ∧
    ((step s (Op.write vaddr value)).page_table (pageNo vaddr)).present = true ∧
    zero_page s p = Except.ok (step s (Op.zero p)) ∧
    ((step s (Op.zero p)).page_table p).present = true := by
  have hw := wf_reachable s hs
  have hpn : pageNo vaddr < 0 := by
    rw [pageNo_div]
    omega
  have hb : pageNo vaddr < (VIRTUAL_PAGES : Int) := by
    rw [virtualPages_int]
    omega
  have hbz : p < (VIRTUAL_PAGES : Int) := by
    rw [virtualPages_int]
    omega
  obtain ⟨hE, hwt⟩ := ensure_run_eq s (pageNo vaddr) hw
  have hpres := ensure_present_after s (pageNo vaddr) _ hE
  obtain ⟨hEz, hwtz⟩ := ensure_run_eq s p hw
  have hpresz := ensure_present_after s p _ hEz
  obtain ⟨f, hF, hR⟩ := read_byte_ok s vaddr hw hb
  obtain ⟨fw, hFw, hW⟩ := write_byte_ok s vaddr value hw hb ⟨h0, h1⟩
  obtain ⟨fz, hFz, hZ⟩ := zero_page_ok s p hw hbz
  refine ⟨hpn, ?_, ?_, ?_, ?_, ?_, ?_⟩
  · simp only [readValue, hR, Option.isSome_some]
  · rw [step_read_of_ok s vaddr _ _ hR]
    exact hpres
  · rw [step_write_of_ok s vaddr value _ hW]
    exact hW
  · rw [step_write_of_ok s vaddr value _ hW]
    show ((if pageNo vaddr = pageNo vaddr then
        { (ensureRun s (pageNo vaddr)).page_table (pageNo vaddr) with dirty := true }
      else (ensureRun s (pageNo vaddr)).page_table (pageNo vaddr)) : PTEntry).present = true
    rw [if_pos rfl]
    exact hpres
  · rw [step_zero_of_ok s p _ hZ]
    exact hZ
  · rw [step_zero_of_ok s p _ hZ]
    show ((if p = p then
        { (ensureRun s p).page_table p with dirty := true }
      else (ensureRun s p).page_table p) : PTEntry).present = true
    rw [if_pos rfl]
    exact hpresz

theorem claim_negative_validation_witness :
    pageNo (-1) < 0 ∧
    (readValue VM.init (-1)).isSome = true ∧
    ((step VM.init (Op.read (-1))).page_table (pageNo (-1))).present = true ∧
    write_byte VM.init (-1) 7 = Except.ok (step VM.init (Op.write (-1) 7)) ∧
    ((step VM.init (Op.write (-1) 7)).page_table (pageNo (-1))).present = true ∧
    zero_page VM.init (-2) = Except.ok (step VM.init (Op.zero (-2))) ∧
    ((step VM.init (Op.zero (-2))).page_table (-2)).present = true :=
  claim_negative_validation VM.init (-1) (-2) 7 ⟨[], rfl⟩ (by decide) (by decide)
    (by decide) (by decide)

/-- C10: each public operation raises the fault counter by 0 or 1 and the
eviction counter by 0 or 1, an eviction increment only happens in a call
that also increments the fault counter, and hence every reachable state has
`page_evictions ≤ page_faults`. -/
theorem claim_stats_monotone :
    (∀ (s : VM) (op : Op),
      ((step s op).page_faults = s.page_faults ∨
        (step s op).page_faults = s.page_faults + 1) ∧
      ((step s op).page_evictions = s.page_evictions ∨
        (step s op).page_evictions = s.page_evictions + 1) ∧
      ((step s op).page_evictions = s.page_evictions + 1 →
        (step s op).page_faults = s.page_faults + 1)) ∧
    (∀ s : VM, Reachable s → s.page_evictions ≤ s.page_faults) := by
  constructor
  · intro s op
    rcases step_counts s op with ⟨h1, h2⟩ | ⟨h1, h2⟩
    · refine ⟨Or.inl h1, Or.inl h2, fun hc => ?_⟩
      omega
    · rcases h2 with h2 | h2
      · exact ⟨Or.inr h1, Or.inl h2, fun _ => h1⟩
      · exact ⟨Or.inr h1, Or.inr h2, fun _ => h1⟩
  · intro s hs
    refine reachable_ind (fun u => u.page_evictions ≤ u.page_faults) ?_ ?_ s hs
    · exact Nat.le_refl 0
    · intro u op hu
      rcases step_counts u op with ⟨h1, h2⟩ | ⟨h1, h2⟩
      · omega
      · rcases h2 with h2 | h2 <;> omega

theorem claim_stats_monotone_witness :
    ((step (run (touchPages 8)) (Op.read 2048)).page_faults =
        (run (touchPages 8)).page_faults ∨
      (step (run (touchPages 8)) (Op.read 2048)).page_faults =
        (run (touchPages 8)).page_faults + 1) ∧
    (run (touchPages 9)).page_evictions ≤ (run (touchPages 9)).page_faults := by
  have h := claim_stats_monotone
  exact ⟨(h.1 (run (touchPages 8)) (Op.read 2048)).1,
    h.2 (run (touchPages 9)) ⟨touchPages 9, rfl⟩⟩
